import Mathlib

/-!
Verification development for the memcached protocol shard adapter
(`src/memcached/protocol.cc`).  The request algebra, the serde for data
buffers and rget results, the superblock metainfo codec and the backfill
producer are embedded shallowly; collaborator types that live outside the
translated unit (`key_range_t`, `region_map_t`, the primitive archive
codecs, timestamps) are modelled from the specification, each marked in
its doc comment.
-/

/-- Keys are opaque byte sequences ordered lexicographically (spec section 3). -/
abbrev Key := List Nat

/-- Byte strings (blobs, serialized payloads). -/
abbrev Bytes := List Nat

/-- Modelled from the spec: lexicographic order on keys (byte sequences). -/
def keyLeB : Key → Key → Bool
  | [], _ => true
  | _ :: _, [] => false
  | a :: as, b :: bs => if a < b then true else if b < a then false else keyLeB as bs

/-- Strict lexicographic order, derived from `keyLeB`. -/
def keyLtB (a b : Key) : Bool := !(keyLeB b a)

theorem keyLeB_refl (a : Key) : keyLeB a a = true := by
  induction a with
  | nil => rfl
  | cons x xs ih => simp [keyLeB, ih]

theorem keyLeB_total (a b : Key) : keyLeB a b = true ∨ keyLeB b a = true := by
  induction a generalizing b with
  | nil => exact Or.inl rfl
  | cons x xs ih =>
    cases b with
    | nil => exact Or.inr rfl
    | cons y ys =>
      rcases Nat.lt_trichotomy x y with h | h | h
      · exact Or.inl (by simp [keyLeB, h])
      · subst h
        rcases ih ys with h2 | h2
        · exact Or.inl (by simp [keyLeB, h2])
        · exact Or.inr (by simp [keyLeB, h2])
      · exact Or.inr (by simp [keyLeB, h])

theorem keyLeB_antisymm {a b : Key} (h1 : keyLeB a b = true) (h2 : keyLeB b a = true) :
    a = b := by
  induction a generalizing b with
  | nil =>
    cases b with
    | nil => rfl
    | cons y ys => simp [keyLeB] at h2
  | cons x xs ih =>
    cases b with
    | nil => simp [keyLeB] at h1
    | cons y ys =>
      rcases Nat.lt_trichotomy x y with h | h | h
      · simp [keyLeB, h, Nat.not_lt.mpr (Nat.le_of_lt h)] at h2
      · subst h
        simp [keyLeB] at h1 h2
        rw [ih h1 h2]
      · simp [keyLeB, h, Nat.not_lt.mpr (Nat.le_of_lt h)] at h1

theorem keyLeB_trans {a b c : Key} (h1 : keyLeB a b = true) (h2 : keyLeB b c = true) :
    keyLeB a c = true := by
  induction a generalizing b c with
  | nil => rfl
  | cons x xs ih =>
    cases b with
    | nil => simp [keyLeB] at h1
    | cons y ys =>
      cases c with
      | nil => simp [keyLeB] at h2
      | cons z zs =>
        simp only [keyLeB] at h1 h2 ⊢
        rcases Nat.lt_trichotomy x y with hxy | hxy | hxy
        · rcases Nat.lt_trichotomy y z with hyz | hyz | hyz
          · simp [Nat.lt_trans hxy hyz]
          · subst hyz; simp [hxy]
          · simp [hyz, Nat.not_lt.mpr (Nat.le_of_lt hyz)] at h2
        · subst hxy
          rcases Nat.lt_trichotomy x z with hyz | hyz | hyz
          · simp [hyz]
          · subst hyz
            simp [Nat.lt_irrefl] at h1 h2 ⊢
            exact ih h1 h2
          · simp [hyz, Nat.not_lt.mpr (Nat.le_of_lt hyz)] at h2
        · simp [hxy, Nat.not_lt.mpr (Nat.le_of_lt hxy)] at h1

theorem keyLeB_of_not_le {a b : Key} (h : keyLeB a b = false) : keyLeB b a = true := by
  rcases keyLeB_total a b with h1 | h1
  · rw [h1] at h; cases h
  · exact h1

/-- Appending a zero byte yields the immediate lexicographic successor:
anything at least `k` and strictly below `k ++ [0]` is `k` itself. -/
theorem key_between_succ {k x : Key} (h1 : keyLeB k x = true)
    (h2 : keyLeB (k ++ [0]) x = false) : x = k := by
  induction k generalizing x with
  | nil =>
    cases x with
    | nil => rfl
    | cons c cs =>
      simp only [List.nil_append, keyLeB] at h2
      rcases Nat.eq_zero_or_pos c with hc | hc
      · subst hc
        simp [keyLeB] at h2
      · simp [hc, Nat.not_lt.mpr hc] at h2
  | cons a as ih =>
    cases x with
    | nil => simp [keyLeB] at h1
    | cons c cs =>
      simp only [keyLeB, List.cons_append] at h1 h2
      rcases Nat.lt_trichotomy a c with h | h | h
      · simp [h] at h2
      · subst h
        simp [Nat.lt_irrefl] at h1 h2
        rw [ih h1 h2]
      · simp [h, Nat.not_lt.mpr (Nat.le_of_lt h)] at h1

/-- Modelled from the spec: a key range with closed left bound `left` and
exclusive right bound `right` (`none` meaning unbounded), the normalised
representation the source manipulates through `region.left`,
`region.right.unbounded` and `region.right.key`. -/
structure key_range_t where
  left : Key
  right : Option Key
  deriving DecidableEq, Repr

/-- Bound modes of `key_range_t` (C++ `key_range_t::bound_t`). -/
inductive bound_t where
  | open_
  | closed
  | none_
  deriving DecidableEq, Repr

/-- Right-bound normalisation for the `key_range_t` constructor: a closed
right bound ends just past the key, an open right bound ends at the key,
`none` is unbounded. -/
def key_range_t.makeRight : bound_t → Key → Option Key
  | bound_t.closed, rk => some (rk ++ [0])
  | bound_t.open_, rk => some rk
  | bound_t.none_, _ => none

/-- Modelled from the spec: the four-argument `key_range_t` constructor.
A closed left bound keeps the key, an open left bound starts at the
successor, `none` starts at the minimum key. -/
def key_range_t.make : bound_t → Key → bound_t → Key → key_range_t
  | bound_t.closed, lk, rm, rk => ⟨lk, key_range_t.makeRight rm rk⟩
  | bound_t.open_, lk, rm, rk => ⟨lk ++ [0], key_range_t.makeRight rm rk⟩
  | bound_t.none_, _, rm, rk => ⟨[], key_range_t.makeRight rm rk⟩

/-- Modelled from the spec: `key_range_t::universe()`, the range spanning
all keys. -/
def key_range_t.universe_range : key_range_t := ⟨[], none⟩

/-- Modelled from the spec: range membership for the normalised
representation. -/
def key_range_t.containsB (r : key_range_t) (k : Key) : Bool :=
  keyLeB r.left k && (match r.right with
    | none => true
    | some x => keyLtB k x)

/-- Modelled from the spec: a range is non-empty when its left bound is
strictly below its right bound. -/
def key_range_t.nonemptyB (r : key_range_t) : Bool :=
  match r.right with
  | none => true
  | some x => keyLtB r.left x

/-- Smaller of two keys in lexicographic order. -/
def keyMin (a b : Key) : Key := if keyLeB a b then a else b

/-- Larger of two keys in lexicographic order. -/
def keyMax (a b : Key) : Key := if keyLeB a b then b else a

/-- Modelled from the spec: intersection of two normalised key ranges. -/
def key_range_t.intersection (a b : key_range_t) : key_range_t :=
  ⟨keyMax a.left b.left,
   match a.right, b.right with
   | none, x => x
   | some x, none => some x
   | some x, some y => some (keyMin x y)⟩

/-- Modelled from the spec: `region_is_superset(sup, sub)` on the
normalised representation. -/
def region_is_supersetB (sup sub : key_range_t) : Bool :=
  keyLeB sup.left sub.left && (match sup.right, sub.right with
    | none, _ => true
    | some _, none => false
    | some a, some b => keyLeB b a)

theorem keyLeB_max_iff (a b k : Key) :
    keyLeB (keyMax a b) k = (keyLeB a k && keyLeB b k) := by
  unfold keyMax
  cases h : keyLeB a b with
  | true =>
    rw [if_pos rfl]
    cases hbk : keyLeB b k with
    | true =>
      have hak : keyLeB a k = true := keyLeB_trans h hbk
      simp [hak]
    | false => simp
  | false =>
    have h1 := keyLeB_of_not_le h
    rw [if_neg (by decide)]
    cases hak : keyLeB a k with
    | true =>
      have hbk : keyLeB b k = true := keyLeB_trans h1 hak
      simp [hbk]
    | false => simp

theorem keyLeB_min_iff (a b k : Key) :
    keyLeB (keyMin a b) k = (keyLeB a k || keyLeB b k) := by
  unfold keyMin
  cases h : keyLeB a b with
  | true =>
    rw [if_pos rfl]
    cases hbk : keyLeB b k with
    | true =>
      have hak : keyLeB a k = true := keyLeB_trans h hbk
      simp [hak]
    | false => simp
  | false =>
    have h1 := keyLeB_of_not_le h
    rw [if_neg (by decide)]
    cases hak : keyLeB a k with
    | true =>
      have hbk : keyLeB b k = true := keyLeB_trans h1 hak
      simp [hbk]
    | false => simp

theorem keyLtB_min_iff (a b k : Key) :
    keyLtB k (keyMin a b) = (keyLtB k a && keyLtB k b) := by
  unfold keyLtB
  rw [keyLeB_min_iff]
  cases keyLeB a k <;> cases keyLeB b k <;> rfl

theorem containsB_intersection (a b : key_range_t) (k : Key) :
    (a.intersection b).containsB k = (a.containsB k && b.containsB k) := by
  unfold key_range_t.intersection key_range_t.containsB
  simp only [keyLeB_max_iff]
  cases ha : a.right with
  | none =>
    cases hb : b.right with
    | none => simp [Bool.and_assoc, Bool.and_comm, Bool.and_left_comm]
    | some y => simp [Bool.and_assoc, Bool.and_comm, Bool.and_left_comm]
  | some x =>
    cases hb : b.right with
    | none => simp [Bool.and_assoc, Bool.and_comm, Bool.and_left_comm]
    | some y =>
      simp only [keyLtB_min_iff]
      simp [Bool.and_assoc, Bool.and_comm, Bool.and_left_comm]

theorem containsB_empty {r : key_range_t} (h : r.nonemptyB = false) (k : Key) :
    r.containsB k = false := by
  unfold key_range_t.nonemptyB at h
  unfold key_range_t.containsB
  cases hr : r.right with
  | none => rw [hr] at h; cases h
  | some x =>
    rw [hr] at h
    have hx : keyLeB x r.left = true := by
      simpa [keyLtB] using h
    cases hl : keyLeB r.left k with
    | false => simp [hl]
    | true =>
      have hk : keyLeB x k = true := keyLeB_trans hx hl
      simp [hl, keyLtB, hk]

/-! ## Archive codec primitives

The write side appends bytes to a `write_message_t`; the read side
consumes a `read_stream_t`.  Both are modelled as byte lists.  The
primitive codecs for `bool`, `int64_t` and `std::string` live outside the
translated unit and are modelled from the spec (length-prefixed framing,
64-bit sizes, `DecodeError` on underflow or negative size). -/

/-- Little-endian byte expansion, `width` bytes. -/
def leBytes : Nat → Nat → List Nat
  | 0, _ => []
  | w + 1, m => m % 256 :: leBytes w (m / 256)

/-- Value of a little-endian byte list. -/
def leVal : List Nat → Nat
  | [] => 0
  | b :: bs => b % 256 + 256 * leVal bs

theorem leVal_leBytes (w m : Nat) : leVal (leBytes w m) = m % 256 ^ w := by
  induction w generalizing m with
  | zero => simp [leBytes, leVal, Nat.mod_one]
  | succ n ih =>
    simp only [leBytes, leVal, ih]
    rw [pow_succ, mul_comm (256 ^ n) 256, Nat.mod_mul, Nat.mod_mod_of_dvd m (dvd_refl 256)]

theorem leBytes_length (w m : Nat) : (leBytes w m).length = w := by
  induction w generalizing m with
  | zero => rfl
  | succ n ih => simp [leBytes, ih]

/-- Modelled from the spec: serialising a `bool` writes one byte. -/
def wBool (b : Bool) : Bytes := [if b then 1 else 0]

/-- Modelled from the spec: serialising an `int64_t` writes eight
little-endian bytes. Sizes written by this layer are non-negative. -/
def wInt64 (n : Nat) : Bytes := leBytes 8 n

/-- Modelled from the spec: deserialising a `bool` consumes one byte;
underflow is a decode error (negative return code). -/
def dBool (s : Bytes) : Except Int (Bool × Bytes) :=
  match s with
  | [] => .error (-1)
  | b :: rest => .ok (b != 0, rest)

/-- Modelled from the spec: deserialising an `int64_t` consumes eight
little-endian bytes, interpreted as a two's-complement value. -/
def dInt64 (s : Bytes) : Except Int (Int × Bytes) :=
  if s.length < 8 then .error (-1)
  else
    let m := leVal (s.take 8)
    .ok (if m < 2 ^ 63 then (m : Int) else (m : Int) - 2 ^ 64, s.drop 8)

/-- Modelled from the spec: `std::string` is framed as a 64-bit length
followed by that many raw bytes. -/
def wString (k : Bytes) : Bytes := wInt64 k.length ++ k

/-- Modelled from the spec: inverse of `wString`; negative length or a
truncated payload is a decode error. -/
def dString (s : Bytes) : Except Int (Bytes × Bytes) :=
  match dInt64 s with
  | .error e => .error e
  | .ok (n, r1) =>
    if n < 0 then .error (-3)
    else if r1.length < n.toNat then .error (-2)
    else .ok (r1.take n.toNat, r1.drop n.toNat)

/-- Serialisation of a shared data buffer
(`operator<<(write_message_t &, const boost::intrusive_ptr<data_buffer_t> &)`,
protocol.cc lines 21-33): an existence flag, then for a present buffer a
64-bit size followed by the raw bytes. -/
def wDataBuffer : Option Bytes → Bytes
  | some buf => wBool true ++ wInt64 buf.length ++ buf
  | none => wBool false

/-- Deserialisation of a shared data buffer
(`deserialize(read_stream_t *, boost::intrusive_ptr<data_buffer_t> *)`,
protocol.cc lines 35-52): reads the flag; when present reads the size
(negative size yields -3), then `force_read`s exactly `size` bytes; a
short read yields -2. -/
def dDataBuffer (s : Bytes) : Except Int (Option Bytes × Bytes) :=
  match dBool s with
  | .error e => .error e
  | .ok (ex, r1) =>
    if ex then
      match dInt64 r1 with
      | .error e => .error e
      | .ok (size, r2) =>
        if size < 0 then .error (-3)
        else if r2.length < size.toNat then .error (-2)
        else .ok (some (r2.take size.toNat), r2.drop size.toNat)
    else .ok (none, r1)

/-- Modelled from the spec: the framed `key_range_t` codec used for the
metainfo keys — the left key, then an unbounded flag, then the right key
when bounded. -/
def wKeyRange (r : key_range_t) : Bytes :=
  wString r.left ++ (match r.right with
    | none => wBool true
    | some k => wBool false ++ wString k)

/-- Modelled from the spec: inverse of `wKeyRange`. -/
def dKeyRange (s : Bytes) : Except Int (key_range_t × Bytes) :=
  match dString s with
  | .error e => .error e
  | .ok (lk, r1) =>
    match dBool r1 with
    | .error e => .error e
    | .ok (unbounded, r2) =>
      if unbounded then .ok (⟨lk, none⟩, r2)
      else
        match dString r2 with
        | .error e => .error e
        | .ok (rk, r3) => .ok (⟨lk, some rk⟩, r3)

theorem dBool_wBool (b : Bool) (rest : Bytes) :
    dBool (wBool b ++ rest) = .ok (b, rest) := by
  cases b <;> rfl

theorem dInt64_wInt64 {n : Nat} (h : n < 2 ^ 63) (rest : Bytes) :
    dInt64 (wInt64 n ++ rest) = .ok ((n : Int), rest) := by
  unfold dInt64 wInt64
  have hlen : (leBytes 8 n).length = 8 := leBytes_length 8 n
  have hlen2 : (leBytes 8 n ++ rest).length = 8 + rest.length := by
    simp [hlen]
  rw [if_neg (by omega)]
  have htake : (leBytes 8 n ++ rest).take 8 = leBytes 8 n := by
    rw [List.take_append_of_le_length (by omega), List.take_of_length_le (by omega)]
  have hdrop : (leBytes 8 n ++ rest).drop 8 = rest := by
    rw [List.drop_append_of_le_length (by omega), List.drop_of_length_le (by omega)]
    simp
  rw [htake, hdrop, leVal_leBytes]
  have hmod : n % 256 ^ 8 = n := Nat.mod_eq_of_lt (by
    have : (2 : Nat) ^ 63 ≤ 256 ^ 8 := by norm_num
    omega)
  rw [hmod]
  have h2 : n < 9223372036854775808 := by norm_num at h; exact h
  simp [h2]

theorem dString_wString {k : Bytes} (h : k.length < 2 ^ 63) (rest : Bytes) :
    dString (wString k ++ rest) = .ok (k, rest) := by
  unfold dString wString
  rw [List.append_assoc, dInt64_wInt64 h]
  simp only [Int.toNat_ofNat]
  rw [if_neg (by omega)]
  have hle : k.length ≤ (k ++ rest).length := by simp
  rw [if_neg (by push_neg; simp)]
  rw [List.take_append_of_le_length le_rfl, List.take_of_length_le le_rfl,
    List.drop_append_of_le_length le_rfl, List.drop_of_length_le le_rfl]
  simp

theorem dDataBuffer_wDataBuffer {buf : Option Bytes}
    (h : ∀ b, buf = some b → b.length < 2 ^ 63) (rest : Bytes) :
    dDataBuffer (wDataBuffer buf ++ rest) = .ok (buf, rest) := by
  cases buf with
  | none =>
    unfold wDataBuffer dDataBuffer
    rw [dBool_wBool]
    rfl
  | some b =>
    have hb := h b rfl
    unfold wDataBuffer dDataBuffer
    rw [List.append_assoc, List.append_assoc, dBool_wBool]
    simp only [if_true]
    rw [dInt64_wInt64 hb]
    simp only [Int.toNat_ofNat]
    rw [if_neg (by omega)]
    have hle : b.length ≤ (b ++ rest).length := by simp
    rw [if_neg (by push_neg; simp)]
    rw [List.take_append_of_le_length le_rfl, List.take_of_length_le le_rfl,
      List.drop_append_of_le_length le_rfl, List.drop_of_length_le le_rfl]
    simp

theorem dKeyRange_wKeyRange {r : key_range_t}
    (hl : r.left.length < 2 ^ 63)
    (hr : ∀ x, r.right = some x → x.length < 2 ^ 63) (rest : Bytes) :
    dKeyRange (wKeyRange r ++ rest) = .ok (r, rest) := by
  cases r with
  | mk left right =>
    dsimp only at hl hr ⊢
    cases right with
    | none =>
      simp [wKeyRange, dKeyRange, List.append_assoc, dString_wString hl, dBool_wBool]
    | some x =>
      have hx := hr x rfl
      simp [wKeyRange, dKeyRange, List.append_assoc, dString_wString hl,
        dBool_wBool, dString_wString hx]

/-! ## Request algebra (`read_t`, `write_t`) -/

/-- Bound modes of an rget query (C++ `rget_bound_mode_t`). -/
inductive rget_bound_mode_t where
  | rget_bound_open
  | rget_bound_closed
  | rget_bound_none
  deriving DecidableEq, Repr

/-- Modelled from the spec: a point read query carries one key. -/
structure get_query_t where
  key : Key
  deriving DecidableEq, Repr

/-- Modelled from the spec: a range read query carries two bound modes
and two keys. -/
structure rget_query_t where
  left_mode : rget_bound_mode_t
  left_key : Key
  right_mode : rget_bound_mode_t
  right_key : Key
  deriving DecidableEq, Repr

/-- The query variant held by a read (C++ `boost::variant<get_query_t,
rget_query_t>`). -/
inductive read_query_t where
  | get (q : get_query_t)
  | rget (q : rget_query_t)
  deriving DecidableEq, Repr

/-- A read request: the query variant plus the effective time
(spec section 3). -/
structure read_t where
  query : read_query_t
  effective_time : Nat
  deriving DecidableEq, Repr

/-- Translation of `convert_bound_mode` (protocol.cc lines 113-120). -/
def convert_bound_mode : rget_bound_mode_t → bound_t
  | rget_bound_mode_t.rget_bound_open => bound_t.open_
  | rget_bound_mode_t.rget_bound_closed => bound_t.closed
  | rget_bound_mode_t.rget_bound_none => bound_t.none_

/-- Translation of `read_get_region_visitor_t` and
`memcached_protocol_t::read_t::get_region` (protocol.cc lines 122-139). -/
def read_t.get_region (r : read_t) : key_range_t :=
  match r.query with
  | read_query_t.get g =>
    key_range_t.make bound_t.closed g.key bound_t.closed g.key
  | read_query_t.rget q =>
    key_range_t.make (convert_bound_mode q.left_mode) q.left_key
      (convert_bound_mode q.right_mode) q.right_key

/-- Translation of `read_shard_visitor_t` and
`memcached_protocol_t::read_t::shard` (protocol.cc lines 143-178): a get
is returned unchanged; an rget is narrowed to the given region, closed on
the left and open (or unbounded) on the right, with the right key left at
its default when the region is unbounded. -/
def read_t.shard (r : read_t) (region : key_range_t) : read_t :=
  match r.query with
  | read_query_t.get g => ⟨read_query_t.get g, r.effective_time⟩
  | read_query_t.rget _ =>
    let sub_rget : rget_query_t :=
      { left_mode := rget_bound_mode_t.rget_bound_closed
        left_key := region.left
        right_mode := match region.right with
          | none => rget_bound_mode_t.rget_bound_none
          | some _ => rget_bound_mode_t.rget_bound_open
        right_key := match region.right with
          | none => []
          | some k => k }
    ⟨read_query_t.rget sub_rget, r.effective_time⟩

/-- One element of an rget result stream (C++ `key_with_data_buffer_t`):
a key and a shared data buffer. -/
structure key_with_data_buffer_t where
  key : Key
  value_provider : Option Bytes
  deriving DecidableEq, Repr

/-- Modelled from the spec: the result of a point get —
`GetResult \x7b value?, flags, cas \x7d`. -/
structure get_result_t where
  value : Option Bytes
  flags : Nat
  cas : Nat
  deriving DecidableEq, Repr

/-- The result variant of a read response (C++
`boost::variant<get_result_t, rget_result_t>`); the rget iterator is
materialised as the list of elements it yields. -/
inductive read_result_t where
  | get_result (g : get_result_t)
  | rget_result (l : List key_with_data_buffer_t)
  deriving DecidableEq, Repr

/-- A read response wrapping its result variant. -/
structure read_response_t where
  result : read_result_t
  deriving DecidableEq, Repr

/-- Error outcomes of the engine (spec section 7); `bad_variant` models a
`boost::get` on the wrong variant. -/
inductive proto_error where
  | interrupted
  | metainfoMismatch
  | decodeError
  | domainViolation
  | bad_variant
  deriving DecidableEq, Repr

/-- Ordered insertion by key, the building block of the merge. -/
def insertByKey (x : key_with_data_buffer_t) :
    List key_with_data_buffer_t → List key_with_data_buffer_t
  | [] => [x]
  | y :: ys =>
    if keyLeB x.key y.key then x :: y :: ys else y :: insertByKey x ys

/-- Modelled from the spec: `merge_ordered_data_iterator_t`, an ordered
merge keyed by key ascending over all mergee streams. -/
def merge_ordered (ls : List (List key_with_data_buffer_t)) :
    List key_with_data_buffer_t :=
  ls.flatten.foldr insertByKey []

/-- Translation of `read_unshard_visitor_t` and
`memcached_protocol_t::read_t::unshard` (protocol.cc lines 184-204).
The `rassert(bits.size() == 1)` on the get path is modelled as a
`DomainViolation`; extracting the wrong variant from a response is
`bad_variant`. -/
def read_t.unshard (r : read_t) (bits : List read_response_t) :
    Except proto_error read_response_t :=
  match r.query with
  | read_query_t.get _ =>
    match bits with
    | [b] =>
      match b.result with
      | read_result_t.get_result g => .ok ⟨read_result_t.get_result g⟩
      | read_result_t.rget_result _ => .error proto_error.bad_variant
    | _ => .error proto_error.domainViolation
  | read_query_t.rget _ =>
    match collectRgets bits with
    | .error e => .error e
    | .ok streams => .ok ⟨read_result_t.rget_result (merge_ordered streams)⟩
where
  /-- Extraction of every mergee via `boost::get<rget_result_t>`. -/
  collectRgets : List read_response_t →
      Except proto_error (List (List key_with_data_buffer_t))
  | [] => .ok []
  | b :: bs =>
    match b.result with
    | read_result_t.rget_result l =>
      match collectRgets bs with
      | .error e => .error e
      | .ok rest => .ok (l :: rest)
    | read_result_t.get_result _ => .error proto_error.bad_variant

/-- Modelled from the spec: the five mutation payloads, each carrying a
key (spec section 3, "Write mutation"). -/
structure get_cas_mutation_t where
  key : Key
  deriving DecidableEq, Repr

/-- Add policy of a set mutation (modelled from the spec). -/
inductive add_policy_t where
  | add_policy_yes
  | add_policy_no
  deriving DecidableEq, Repr

/-- Replace policy of a set mutation (modelled from the spec). -/
inductive replace_policy_t where
  | replace_policy_yes
  | replace_policy_no
  deriving DecidableEq, Repr

/-- Modelled from the spec: the set/add/replace mutation payload. -/
structure sarc_mutation_t where
  key : Key
  data : Option Bytes
  flags : Nat
  exptime : Nat
  add_policy : add_policy_t
  replace_policy : replace_policy_t
  old_cas : Nat
  deriving DecidableEq, Repr

/-- Direction of an incr/decr mutation. -/
inductive incr_decr_kind_t where
  | incr_decr_INCR
  | incr_decr_DECR
  deriving DecidableEq, Repr

/-- Modelled from the spec: the incr/decr mutation payload. -/
structure incr_decr_mutation_t where
  key : Key
  kind : incr_decr_kind_t
  amount : Nat
  deriving DecidableEq, Repr

/-- Direction of an append/prepend mutation. -/
inductive append_prepend_kind_t where
  | append_prepend_APPEND
  | append_prepend_PREPEND
  deriving DecidableEq, Repr

/-- Modelled from the spec: the append/prepend mutation payload. -/
structure append_prepend_mutation_t where
  key : Key
  data : Option Bytes
  kind : append_prepend_kind_t
  deriving DecidableEq, Repr

/-- Modelled from the spec: the delete mutation payload. -/
structure delete_mutation_t where
  key : Key
  dont_put_in_delete_queue : Bool
  deriving DecidableEq, Repr

/-- The mutation variant held by a write (C++ `mutation_t`). -/
inductive mutation_t where
  | get_cas (m : get_cas_mutation_t)
  | sarc (m : sarc_mutation_t)
  | incr_decr (m : incr_decr_mutation_t)
  | append_prepend (m : append_prepend_mutation_t)
  | delete (m : delete_mutation_t)
  deriving DecidableEq, Repr

/-- Every mutation variant has a member `key`
(comment at protocol.cc line 209). -/
def mutation_t.key : mutation_t → Key
  | mutation_t.get_cas m => m.key
  | mutation_t.sarc m => m.key
  | mutation_t.incr_decr m => m.key
  | mutation_t.append_prepend m => m.key
  | mutation_t.delete m => m.key

/-- A write request: the mutation, the proposed CAS and the effective
time (spec section 3). -/
structure write_t where
  mutation : mutation_t
  proposed_cas : Nat
  effective_time : Nat
  deriving DecidableEq, Repr

/-- Translation of `write_get_region_visitor_t` and
`memcached_protocol_t::write_t::get_region` (protocol.cc lines 208-219):
the point range of the mutation key. -/
def write_t.get_region (w : write_t) : key_range_t :=
  key_range_t.make bound_t.closed w.mutation.key bound_t.closed w.mutation.key

/-- Translation of `memcached_protocol_t::write_t::shard`
(protocol.cc lines 223-226): the write itself. -/
def write_t.shard (w : write_t) (_region : key_range_t) : write_t := w

/-- Modelled from the spec: mutation-specific write result payloads. -/
inductive write_result_t where
  | get_cas_result (g : get_result_t)
  | set_result (code : Nat)
  | incr_decr_result (code : Nat) (new_value : Nat)
  | append_prepend_result (code : Nat)
  | delete_result (code : Nat)
  deriving DecidableEq, Repr

/-- A write response wrapping its result variant. -/
structure write_response_t where
  result : write_result_t
  deriving DecidableEq, Repr

/-- Translation of `memcached_protocol_t::write_t::unshard`
(protocol.cc lines 230-234): exactly one response is expected
(`rassert(responses.size() == 1)`, modelled as `DomainViolation`) and is
returned unchanged. -/
def write_t.unshard (_w : write_t) (responses : List write_response_t) :
    Except proto_error write_response_t :=
  match responses with
  | [resp] => .ok resp
  | _ => .error proto_error.domainViolation

/-! ## Region maps and the metainfo codec -/

/-- Modelled from the spec: `region_map_t<V>`, a total function over its
domain represented as a list of `(sub-region, value)` partitions; lookup
takes the first partition containing the key, so overlay is list
prepending. -/
abbrev region_map_t (V : Type) := List (key_range_t × V)

/-- Value of a region map at a key: the value of the first partition
containing it. -/
def region_map_lookup {V : Type} : region_map_t V → Key → Option V
  | [], _ => none
  | (r, v) :: tl, k => if r.containsB k then some v else region_map_lookup tl k

/-- Modelled from the spec: `region_map_t::update(other)` overlays
`other` onto `self` (`other` wins wherever it is defined). -/
def region_map_update {V : Type} (self other : region_map_t V) : region_map_t V :=
  other ++ self

/-- Hull of two normalised ranges (smallest range containing both). -/
def range_hull (a b : key_range_t) : key_range_t :=
  ⟨keyMin a.left b.left,
   match a.right, b.right with
   | none, _ => none
   | _, none => none
   | some x, some y => some (keyMax x y)⟩

/-- Modelled from the spec: `region_map_t::get_domain()`, the region
covered by the partitions (their union, a single contiguous range for a
well-formed map). -/
def region_map_get_domain {V : Type} : region_map_t V → key_range_t
  | [] => ⟨[], some []⟩
  | (r, _) :: tl => tl.foldl (fun acc p => range_hull acc p.1) r

/-- Modelled from the spec: `region_map_t::mask(region)` restricts a map
to the partitions intersected with `region`, dropping the empty pieces. -/
def region_map_mask {V : Type} (m : region_map_t V) (d : key_range_t) :
    region_map_t V :=
  m.filterMap fun p =>
    if (d.intersection p.1).nonemptyB then some (d.intersection p.1, p.2) else none

/-- The metainfo map: regions to opaque blobs
(`region_map_t<memcached_protocol_t, binary_blob_t>`). -/
abbrev metainfo_t := region_map_t Bytes

/-- The engine-owned superblock state: the flat `(key, value)` pair
sequence manipulated through `clear_superblock_metainfo` and
`set_superblock_metainfo`. -/
abbrev superblock_pairs_t := List (Bytes × Bytes)

/-- Translation of the create branch of the store constructor
(protocol.cc lines 265-284): the metainfo pairs are cleared, then a
single pair mapping the serialised universe range to an empty blob is
stored. -/
def store_create_metainfo : superblock_pairs_t :=
  [(wKeyRange key_range_t.universe_range, [])]

/-- Translation of `get_metainfo_internal` (protocol.cc lines 372-395):
each pair's key is deserialised into a region (`rassert(!res)` modelled
as error propagation) and paired with the raw blob bytes. -/
def get_metainfo_internal : superblock_pairs_t → Except Int metainfo_t
  | [] => .ok []
  | (kb, vb) :: rest =>
    match dKeyRange kb with
    | .error e => .error e
    | .ok (region, _) =>
      match get_metainfo_internal rest with
      | .error e => .error e
      | .ok tl => .ok ((region, vb) :: tl)

/-- Translation of `update_metainfo` (protocol.cc lines 667-688):
overlays `new_metainfo` onto `old_metainfo`, clears the superblock pairs
and writes one `(serialised region, blob bytes)` pair per partition. -/
def update_metainfo (old_metainfo new_metainfo : metainfo_t) : superblock_pairs_t :=
  (region_map_update old_metainfo new_metainfo).map fun p => (wKeyRange p.1, p.2)

/-! ## Sampling machinery for the piecewise-constant map comparison -/

/-- Endpoint keys of a range. -/
def range_endpoints (r : key_range_t) : List Key :=
  r.left :: (match r.right with
    | some x => [x]
    | none => [])

/-- Endpoint keys of every partition of a map. -/
def map_endpoints {V : Type} (m : region_map_t V) : List Key :=
  m.flatMap fun p => range_endpoints p.1

/-- Largest sample of `S` at most `k` (the minimum key is an implicit
candidate). -/
def bestLe (S : List Key) (k : Key) : Key :=
  S.foldl (fun acc e => if keyLeB e k && keyLeB acc e then e else acc) []

theorem bestLe_foldl_mono (S : List Key) (k acc : Key) :
    keyLeB acc (S.foldl (fun a e => if keyLeB e k && keyLeB a e then e else a) acc) = true := by
  induction S generalizing acc with
  | nil => exact keyLeB_refl acc
  | cons e es ih =>
    simp only [List.foldl_cons]
    by_cases h : (keyLeB e k && keyLeB acc e) = true
    · rw [if_pos h]
      exact keyLeB_trans (Bool.and_elim_right h) (ih e)
    · rw [if_neg h]
      exact ih acc

theorem bestLe_foldl_le {S : List Key} {k acc : Key} (h : keyLeB acc k = true) :
    keyLeB (S.foldl (fun a e => if keyLeB e k && keyLeB a e then e else a) acc) k = true := by
  induction S generalizing acc with
  | nil => exact h
  | cons e es ih =>
    simp only [List.foldl_cons]
    by_cases h2 : (keyLeB e k && keyLeB acc e) = true
    · rw [if_pos h2]
      exact ih (Bool.and_elim_left h2)
    · rw [if_neg h2]
      exact ih h

theorem bestLe_foldl_max {S : List Key} {k acc e : Key} (he : e ∈ S)
    (hek : keyLeB e k = true) :
    keyLeB e (S.foldl (fun a x => if keyLeB x k && keyLeB a x then x else a) acc) = true := by
  induction S generalizing acc with
  | nil => cases he
  | cons x xs ih =>
    simp only [List.foldl_cons]
    rcases List.mem_cons.mp he with rfl | hmem
    · by_cases h2 : (keyLeB e k && keyLeB acc e) = true
      · rw [if_pos h2]
        exact bestLe_foldl_mono xs k e
      · rw [if_neg h2]
        rw [hek, Bool.true_and] at h2
        have hae : keyLeB e acc = true :=
          keyLeB_of_not_le (Bool.of_not_eq_true h2)
        exact keyLeB_trans hae (bestLe_foldl_mono xs k acc)
    · exact ih hmem

theorem bestLe_foldl_mem (S : List Key) (k acc : Key) :
    S.foldl (fun a e => if keyLeB e k && keyLeB a e then e else a) acc = acc ∨
      S.foldl (fun a e => if keyLeB e k && keyLeB a e then e else a) acc ∈ S := by
  induction S generalizing acc with
  | nil => exact Or.inl rfl
  | cons e es ih =>
    simp only [List.foldl_cons]
    by_cases h : (keyLeB e k && keyLeB acc e) = true
    · rw [if_pos h]
      rcases ih e with h2 | h2
      · exact Or.inr (by rw [h2]; exact List.mem_cons_self e es)
      · exact Or.inr (List.mem_cons_of_mem e h2)
    · rw [if_neg h]
      rcases ih acc with h2 | h2
      · exact Or.inl h2
      · exact Or.inr (List.mem_cons_of_mem e h2)

theorem bestLe_le (S : List Key) (k : Key) : keyLeB (bestLe S k) k = true :=
  bestLe_foldl_le rfl

theorem bestLe_max {S : List Key} {k e : Key} (he : e ∈ S) (hek : keyLeB e k = true) :
    keyLeB e (bestLe S k) = true :=
  bestLe_foldl_max he hek

theorem bestLe_mem (S : List Key) (k : Key) : bestLe S k = [] ∨ bestLe S k ∈ S :=
  bestLe_foldl_mem S k []

/-- Comparisons against a sample key are unchanged when the key moves to
the best sample below it. -/
theorem keyLe_bestLe_eq {S : List Key} {e : Key} (he : e ∈ S) (k : Key) :
    keyLeB e k = keyLeB e (bestLe S k) := by
  cases h : keyLeB e k with
  | true => exact (bestLe_max he h).symm
  | false =>
    cases h2 : keyLeB e (bestLe S k) with
    | true =>
      have := keyLeB_trans h2 (bestLe_le S k)
      rw [this] at h
      cases h
    | false => rfl

/-- Range membership is constant on the piece delimited by the samples:
a range whose endpoints are samples contains `k` iff it contains
`bestLe S k`. -/
theorem containsB_bestLe {S : List Key} {r : key_range_t}
    (hl : r.left ∈ S) (hr : ∀ x, r.right = some x → x ∈ S) (k : Key) :
    r.containsB k = r.containsB (bestLe S k) := by
  unfold key_range_t.containsB
  cases hright : r.right with
  | none =>
    dsimp only
    rw [← keyLe_bestLe_eq hl]
  | some x =>
    have hx := hr x hright
    dsimp only
    unfold keyLtB
    rw [← keyLe_bestLe_eq hl, ← keyLe_bestLe_eq hx]

/-- Map lookup is constant on the piece delimited by the samples. -/
theorem lookup_bestLe {V : Type} {S : List Key} {m : region_map_t V}
    (h : ∀ e ∈ map_endpoints m, e ∈ S) (k : Key) :
    region_map_lookup m k = region_map_lookup m (bestLe S k) := by
  induction m with
  | nil => rfl
  | cons p tl ih =>
    obtain ⟨r, v⟩ := p
    have hl : r.left ∈ S := by
      apply h
      simp [map_endpoints, range_endpoints]
    have hr : ∀ x, r.right = some x → x ∈ S := by
      intro x hx
      apply h
      simp [map_endpoints, range_endpoints, hx]
    have htl : ∀ e ∈ map_endpoints tl, e ∈ S := by
      intro e hee
      apply h
      simp only [map_endpoints, List.flatMap_cons, List.mem_append]
      exact Or.inr hee
    simp only [region_map_lookup]
    rw [← containsB_bestLe hl hr k, ih htl]

/-! ## Store operations over the superblock metainfo -/

/-- Decision procedure for the `check_metainfo` assertion
`old_metainfo.mask(expected.get_domain()) == expected`: the two piecewise
constant functions are compared on every piece, sampling each piece at
its left end. -/
def metainfo_matchesB (cur expected : metainfo_t) : Bool :=
  let D := region_map_get_domain expected
  let S := [] :: (range_endpoints D ++ (map_endpoints cur ++ map_endpoints expected))
  S.all fun k =>
    decide ((if D.containsB k then region_map_lookup cur k else none) =
      region_map_lookup expected k)

/-- The decision procedure is sound and complete for the pointwise
comparison of the masked current map against the expected map. -/
theorem metainfo_matchesB_iff (cur expected : metainfo_t) :
    metainfo_matchesB cur expected = true ↔
      ∀ k, (if (region_map_get_domain expected).containsB k then
        region_map_lookup cur k else none) = region_map_lookup expected k := by
  unfold metainfo_matchesB
  rw [List.all_eq_true]
  constructor
  · intro hall k
    set D := region_map_get_domain expected with hD
    set S := [] :: (range_endpoints D ++ (map_endpoints cur ++ map_endpoints expected)) with hS
    have hmemD : ∀ e ∈ range_endpoints D, e ∈ S := by
      intro e hee
      rw [hS]
      exact List.mem_cons_of_mem _ (List.mem_append_left _ hee)
    have hmemc : ∀ e ∈ map_endpoints cur, e ∈ S := by
      intro e hee
      rw [hS]
      exact List.mem_cons_of_mem _ (List.mem_append_right _ (List.mem_append_left _ hee))
    have hmeme : ∀ e ∈ map_endpoints expected, e ∈ S := by
      intro e hee
      rw [hS]
      exact List.mem_cons_of_mem _ (List.mem_append_right _ (List.mem_append_right _ hee))
    have hDl : D.left ∈ S := hmemD _ (by simp [range_endpoints])
    have hDr : ∀ x, D.right = some x → x ∈ S := by
      intro x hx
      exact hmemD x (by simp [range_endpoints, hx])
    have hsmem : bestLe S k ∈ S := by
      rcases bestLe_mem S k with h | h
      · rw [h, hS]; exact List.mem_cons_self _ _
      · exact h
    have hpiece := hall (bestLe S k) hsmem
    rw [decide_eq_true_iff] at hpiece
    rw [containsB_bestLe hDl hDr k, lookup_bestLe hmemc k, lookup_bestLe hmeme k]
    exact hpiece
  · intro hp k _
    rw [decide_eq_true_iff]
    exact hp k

/-- Translation of `check_metainfo` (protocol.cc lines 656-665): reads
the current metainfo and asserts
`old_metainfo.mask(expected_metainfo.get_domain()) == expected_metainfo`
(`rassert` modelled as `MetainfoMismatch`); returns the full current
metainfo. -/
def check_metainfo (state : superblock_pairs_t) (expected : metainfo_t) :
    Except proto_error metainfo_t :=
  match get_metainfo_internal state with
  | .error _ => .error proto_error.decodeError
  | .ok cur =>
    if metainfo_matchesB cur expected then .ok cur
    else .error proto_error.metainfoMismatch

/-- Translation of `check_and_update_metainfo` (protocol.cc lines
645-654): check, then persist the overlay. -/
def check_and_update_metainfo (state : superblock_pairs_t)
    (expected new_metainfo : metainfo_t) : Except proto_error superblock_pairs_t :=
  match check_metainfo state expected with
  | .error e => .error e
  | .ok old_metainfo => .ok (update_metainfo old_metainfo new_metainfo)

/-- Translation of `store_t::read` (protocol.cc lines 431-446) with the
B-tree dispatch abstracted as a function of the query variant: the
metainfo check precedes the dispatch. -/
def store_read (state : superblock_pairs_t) (expected : metainfo_t)
    (r : read_t) (dispatch : read_query_t → read_result_t) :
    Except proto_error read_response_t :=
  match check_metainfo state expected with
  | .error e => .error e
  | .ok _ => .ok ⟨dispatch r.query⟩

/-- Translation of `store_t::write` (protocol.cc lines 482-500) with the
B-tree dispatch abstracted: `check_and_update_metainfo` precedes the
dispatch, and the persisted pairs change with the response. -/
def store_write (state : superblock_pairs_t) (expected new_metainfo : metainfo_t)
    (w : write_t) (dispatch : mutation_t → write_result_t) :
    Except proto_error (write_response_t × superblock_pairs_t) :=
  match check_and_update_metainfo state expected new_metainfo with
  | .error e => .error e
  | .ok state2 => .ok (⟨dispatch w.mutation⟩, state2)

/-- Translation of `store_t::set_metainfo` (protocol.cc lines 397-409):
reads the old metainfo and persists the overlay, with no check. -/
def set_metainfo_op (state : superblock_pairs_t) (new_metainfo : metainfo_t) :
    Except Int superblock_pairs_t :=
  match get_metainfo_internal state with
  | .error e => .error e
  | .ok old_metainfo => .ok (update_metainfo old_metainfo new_metainfo)

/-- Translation of the metainfo effect of `store_t::reset_data`
(protocol.cc lines 620-643): identical to `set_metainfo`; the
`memcached_erase_range` call acts on the B-tree outside this state. -/
def reset_data_op (state : superblock_pairs_t) (_subregion : key_range_t)
    (new_metainfo : metainfo_t) : Except Int superblock_pairs_t :=
  match get_metainfo_internal state with
  | .error e => .error e
  | .ok old_metainfo => .ok (update_metainfo old_metainfo new_metainfo)

/-! ## Backfill producer -/

/-- Modelled from the spec: a backfill atom
`(key, value, flags, exptime, recency, cas_or_zero)`. -/
structure backfill_atom_t where
  key : Key
  value : Option Bytes
  flags : Nat
  exptime : Nat
  recency : Nat
  cas_or_zero : Nat
  deriving DecidableEq, Repr

/-- The backfill chunk variant (spec section 3). -/
inductive backfill_chunk_t where
  | delete_range (range : key_range_t)
  | delete_key (key : Key) (recency : Nat)
  | set_key (atom : backfill_atom_t)
  deriving DecidableEq, Repr

/-- Modelled from the spec: `state_timestamp_t::to_repli_timestamp`, the
lossy conversion to the coarser 32-bit replication timestamp. -/
def state_timestamp_to_repli (t : Nat) : Nat := t % 2 ^ 32

/-- Translation of `store_t::send_backfill` (protocol.cc lines 531-560)
with the B-tree traversal abstracted as `traverse`: the current metainfo
masked to the start point's domain is passed to `should_backfill`; on
refusal no chunk is emitted and `false` is returned; on acceptance every
`(sub-range, timestamp)` partition is traversed with the coarsened
timestamp, one progress constituent is registered per sub-range (the
returned count) and `true` is returned. -/
def send_backfill (state : superblock_pairs_t) (start_point : region_map_t Nat)
    (should_backfill : metainfo_t → Bool)
    (traverse : key_range_t → Nat → List backfill_chunk_t) :
    Except proto_error (Bool × List backfill_chunk_t × Nat) :=
  match get_metainfo_internal state with
  | .error _ => .error proto_error.decodeError
  | .ok cur =>
    let metainfo := region_map_mask cur (region_map_get_domain start_point)
    if should_backfill metainfo then
      .ok (true,
        start_point.flatMap (fun p => traverse p.1 (state_timestamp_to_repli p.2)),
        start_point.length)
    else
      .ok (false, [], 0)

/-- Semantics of `region_map_t::mask`: the masked map agrees with the
original inside the region and is undefined outside it. -/
theorem region_map_mask_lookup {V : Type} (m : region_map_t V)
    (d : key_range_t) (k : Key) :
    region_map_lookup (region_map_mask m d) k =
      if d.containsB k then region_map_lookup m k else none := by
  induction m with
  | nil =>
    simp only [region_map_mask, List.filterMap_nil, region_map_lookup]
    cases d.containsB k <;> rfl
  | cons p tl ih =>
    obtain ⟨r, v⟩ := p
    simp only [region_map_mask, List.filterMap_cons] at *
    by_cases hne : (d.intersection r).nonemptyB = true
    · rw [if_pos hne]
      simp only [region_map_lookup, containsB_intersection]
      cases hdk : d.containsB k with
      | true =>
        cases hrk : r.containsB k with
        | true => simp
        | false => simpa [hdk] using ih
      | false =>
        simp only [Bool.false_and, Bool.false_eq_true, if_false]
        simpa [hdk] using ih
    · rw [if_neg hne]
      have hempty := containsB_empty (Bool.of_not_eq_true hne) k
      rw [containsB_intersection] at hempty
      cases hdk : d.containsB k with
      | true =>
        rw [hdk, Bool.true_and] at hempty
        simp only [region_map_lookup, hempty, Bool.false_eq_true, if_false]
        simpa [hdk] using ih
      | false =>
        simpa [hdk] using ih

/-! ## Rget result stream framing -/

/-- Translation of `operator<<(write_message_t &, const rget_result_t &)`
(protocol.cc lines 72-86): the iterator is drained; each element is
preceded by a true `next` flag and followed by the next iteration; a
final false `next` flag terminates the stream. -/
def wRgetResult : List key_with_data_buffer_t → Bytes
  | [] => wBool false
  | kv :: rest =>
    wBool true ++ wString kv.key ++ wDataBuffer kv.value_provider ++ wRgetResult rest

theorem dBool_length {s r : Bytes} {b : Bool} (h : dBool s = .ok (b, r)) :
    r.length < s.length := by
  cases s with
  | nil => simp [dBool] at h
  | cons x xs =>
    simp only [dBool, Except.ok.injEq, Prod.mk.injEq] at h
    obtain ⟨-, rfl⟩ := h
    simp

theorem dInt64_length {s r : Bytes} {n : Int} (h : dInt64 s = .ok (n, r)) :
    r.length ≤ s.length := by
  unfold dInt64 at h
  by_cases hl : s.length < 8
  · rw [if_pos hl] at h
    cases h
  · rw [if_neg hl] at h
    simp only [Except.ok.injEq, Prod.mk.injEq] at h
    obtain ⟨-, rfl⟩ := h
    simp

theorem dString_length {s r k : Bytes} (h : dString s = .ok (k, r)) :
    r.length ≤ s.length := by
  unfold dString at h
  split at h
  · cases h
  · rename_i n r1 hdi
    have h1 := dInt64_length hdi
    split at h
    · cases h
    · split at h
      · cases h
      · simp only [Except.ok.injEq, Prod.mk.injEq] at h
        obtain ⟨-, rfl⟩ := h
        have := List.length_drop n.toNat r1
        omega

theorem dDataBuffer_length {s r : Bytes} {buf : Option Bytes}
    (h : dDataBuffer s = .ok (buf, r)) : r.length ≤ s.length := by
  unfold dDataBuffer at h
  split at h
  · cases h
  · rename_i ex r1 hdb
    have h1 := Nat.le_of_lt (dBool_length hdb)
    split at h
    · split at h
      · cases h
      · rename_i n r2 hdi
        have h2 := dInt64_length hdi
        split at h
        · cases h
        · split at h
          · cases h
          · simp only [Except.ok.injEq, Prod.mk.injEq] at h
            obtain ⟨-, rfl⟩ := h
            have := List.length_drop n.toNat r2
            omega
    · simp only [Except.ok.injEq, Prod.mk.injEq] at h
      obtain ⟨-, rfl⟩ := h
      exact h1

/-- Translation of `deserialize(read_stream_t *, rget_result_t *)`
(protocol.cc lines 88-108): the loop reads `next` flags, decodes the key
and data buffer of each element without retaining them, and stops with an
empty iterator when `next` is false. -/
def dRgetResult (s : Bytes) : Except Int (List key_with_data_buffer_t × Bytes) :=
  match hb : dBool s with
  | .error e => .error e
  | .ok (next, r1) =>
    if next then
      match hs : dString r1 with
      | .error e => .error e
      | .ok (_key, r2) =>
        match hd : dDataBuffer r2 with
        | .error e => .error e
        | .ok (_data, r3) => dRgetResult r3
    else .ok ([], r1)
termination_by s.length
decreasing_by
  have h1 := dBool_length hb
  have h2 := dString_length hs
  have h3 := dDataBuffer_length hd
  omega

/-- Unfolding of one loop iteration of the rget deserialiser when the
`next` flag decodes to false. -/
theorem dRgetResult_step_false {s rest : Bytes} (h : dBool s = .ok (false, rest)) :
    dRgetResult s = .ok ([], rest) := by
  rw [dRgetResult]
  split
  · rename_i e hb
    rw [h] at hb
    cases hb
  · rename_i next r1 hb
    rw [h] at hb
    simp only [Except.ok.injEq, Prod.mk.injEq] at hb
    obtain ⟨rfl, rfl⟩ := hb
    simp

/-- Unfolding of one loop iteration of the rget deserialiser when the
`next` flag decodes to true and both element fields decode. -/
theorem dRgetResult_step_true {s r1 r2 r3 kk : Bytes} {d : Option Bytes}
    (h1 : dBool s = .ok (true, r1)) (h2 : dString r1 = .ok (kk, r2))
    (h3 : dDataBuffer r2 = .ok (d, r3)) :
    dRgetResult s = dRgetResult r3 := by
  rw [dRgetResult]
  split
  · rename_i e hb
    rw [h1] at hb
    cases hb
  · rename_i next rr1 hb
    rw [h1] at hb
    simp only [Except.ok.injEq, Prod.mk.injEq] at hb
    obtain ⟨rfl, rfl⟩ := hb
    simp only [if_true]
    split
    · rename_i e hs
      rw [h2] at hs
      cases hs
    · rename_i kk2 rr2 hs
      rw [h2] at hs
      simp only [Except.ok.injEq, Prod.mk.injEq] at hs
      obtain ⟨rfl, rfl⟩ := hs
      split
      · rename_i e hd
        rw [h3] at hd
        cases hd
      · rename_i d2 rr3 hd
        rw [h3] at hd
        simp only [Except.ok.injEq, Prod.mk.injEq] at hd
        obtain ⟨rfl, rfl⟩ := hd
        rfl

/-! ## Claim theorems -/

/-- C6: serialising an rget result writes, for each element in stream
order, a boolean next=true followed by the element's key and data buffer,
and after the last element a single boolean next=false; serialising an
empty rget result writes exactly one next=false terminator and nothing
else. -/
theorem C6_rget_serialisation_framing (l : List key_with_data_buffer_t) :
    wRgetResult l =
      (l.flatMap fun kv =>
        wBool true ++ wString kv.key ++ wDataBuffer kv.value_provider) ++ wBool false ∧
    wRgetResult [] = wBool false := by
  constructor
  · induction l with
    | nil => simp [wRgetResult]
    | cons kv tl ih =>
      simp only [wRgetResult, ih, List.flatMap_cons, List.append_assoc]
  · rfl

/-- C10: data-buffer codec round-trip — serialising any data buffer
(null or present) and deserialising returns success with an equal buffer
and leaves the remaining stream intact. -/
theorem C10_data_buffer_roundtrip (buf : Option Bytes) (rest : Bytes)
    (h : ∀ b, buf = some b → b.length < 2 ^ 63) :
    dDataBuffer (wDataBuffer buf ++ rest) = .ok (buf, rest) :=
  dDataBuffer_wDataBuffer h rest

/-- Witness for C10 at a present two-byte buffer and at the null buffer. -/
theorem C10_data_buffer_roundtrip_witness :
    dDataBuffer (wDataBuffer (some [104, 105]) ++ [9]) = .ok (some [104, 105], [9]) ∧
    dDataBuffer (wDataBuffer none ++ [7]) = .ok (none, [7]) :=
  ⟨C10_data_buffer_roundtrip (some [104, 105]) [9]
      (fun b hb => by cases hb; decide),
    C10_data_buffer_roundtrip none [7] (fun b hb => by cases hb)⟩

/-- C9: on any well-framed input stream (the encoding of any element
list followed by any tail) the rget response deserialiser returns
success with an iterator yielding no elements, whatever the number of
encoded elements. -/
theorem C9_rget_deserialise_discards (l : List key_with_data_buffer_t) (rest : Bytes)
    (h : ∀ kv ∈ l, kv.key.length < 2 ^ 63 ∧
      ∀ b, kv.value_provider = some b → b.length < 2 ^ 63) :
    dRgetResult (wRgetResult l ++ rest) = .ok ([], rest) := by
  induction l with
  | nil => exact dRgetResult_step_false (dBool_wBool false rest)
  | cons kv tl ih =>
    have hkv := h kv (List.mem_cons_self kv tl)
    have htl : ∀ x ∈ tl, x.key.length < 2 ^ 63 ∧
        ∀ b, x.value_provider = some b → b.length < 2 ^ 63 :=
      fun x hx => h x (List.mem_cons_of_mem kv hx)
    rw [wRgetResult]
    simp only [List.append_assoc]
    rw [dRgetResult_step_true (dBool_wBool true _) (dString_wString hkv.1 _)
      (dDataBuffer_wDataBuffer hkv.2 _)]
    exact ih htl

/-- Witness for C9 on the encoding of a one-element stream. -/
theorem C9_rget_deserialise_discards_witness :
    dRgetResult (wRgetResult [⟨[97], some [118]⟩] ++ [5]) = .ok ([], [5]) :=
  C9_rget_deserialise_discards [⟨[97], some [118]⟩] [5]
    (by
      intro kv hkv
      simp only [List.mem_singleton] at hkv
      subst hkv
      exact ⟨by decide, fun b hb => by cases hb; decide⟩)

theorem keyLeB_append_zero (k : Key) : keyLeB (k ++ [0]) k = false := by
  induction k with
  | nil => rfl
  | cons a as ih => simp [keyLeB, ih]

/-- The normalised point range built from closed bounds on the same key
contains exactly that key. -/
theorem point_range_containsB (k x : Key) :
    (key_range_t.make bound_t.closed k bound_t.closed k).containsB x = true ↔ x = k := by
  unfold key_range_t.make key_range_t.makeRight key_range_t.containsB keyLtB
  dsimp only
  constructor
  · intro h
    rw [Bool.and_eq_true] at h
    obtain ⟨h1, h2⟩ := h
    exact key_between_succ h1 (by simpa using h2)
  · rintro rfl
    rw [keyLeB_refl, keyLeB_append_zero]
    rfl

/-- C8: the region of a Get read and of every write mutation is the
closed point range `[k,k]` of its key (both structurally, via the
closed/closed constructor, and semantically: it contains exactly `k`);
the region of an Rget read is built from its left and right keys with
the bound-mode mapping open→open, closed→closed, none→none. -/
theorem C8_get_region :
    (∀ (g : get_query_t) (et : Nat),
      read_t.get_region ⟨read_query_t.get g, et⟩ =
        key_range_t.make bound_t.closed g.key bound_t.closed g.key ∧
      ∀ x, (read_t.get_region ⟨read_query_t.get g, et⟩).containsB x = true ↔ x = g.key) ∧
    (∀ (w : write_t),
      write_t.get_region w =
        key_range_t.make bound_t.closed w.mutation.key bound_t.closed w.mutation.key ∧
      ∀ x, (write_t.get_region w).containsB x = true ↔ x = w.mutation.key) ∧
    (∀ (q : rget_query_t) (et : Nat),
      read_t.get_region ⟨read_query_t.rget q, et⟩ =
        key_range_t.make (convert_bound_mode q.left_mode) q.left_key
          (convert_bound_mode q.right_mode) q.right_key) ∧
    (convert_bound_mode rget_bound_mode_t.rget_bound_open = bound_t.open_ ∧
      convert_bound_mode rget_bound_mode_t.rget_bound_closed = bound_t.closed ∧
      convert_bound_mode rget_bound_mode_t.rget_bound_none = bound_t.none_) :=
  ⟨fun g et => ⟨rfl, fun x => point_range_containsB g.key x⟩,
    fun w => ⟨rfl, fun x => point_range_containsB w.mutation.key x⟩,
    fun _ _ => rfl,
    rfl, rfl, rfl⟩

/-- C2: sharding an Rget to a sub-region contained in its region yields
an Rget whose left bound is closed at the sub-region's left key, whose
right bound is none when the sub-region is right-unbounded and otherwise
open at the sub-region's right key, with the effective time preserved;
sharding a Get to its own point region returns the read unchanged. -/
theorem C2_read_shard :
    (∀ (q : rget_query_t) (et : Nat) (sub : key_range_t),
      region_is_supersetB (read_t.get_region ⟨read_query_t.rget q, et⟩) sub = true →
        ∃ q2 : rget_query_t,
          read_t.shard ⟨read_query_t.rget q, et⟩ sub = ⟨read_query_t.rget q2, et⟩ ∧
          q2.left_mode = rget_bound_mode_t.rget_bound_closed ∧
          q2.left_key = sub.left ∧
          (sub.right = none → q2.right_mode = rget_bound_mode_t.rget_bound_none) ∧
          (∀ x, sub.right = some x →
            q2.right_mode = rget_bound_mode_t.rget_bound_open ∧ q2.right_key = x)) ∧
    (∀ (g : get_query_t) (et : Nat) (sub : key_range_t),
      sub = read_t.get_region ⟨read_query_t.get g, et⟩ →
        read_t.shard ⟨read_query_t.get g, et⟩ sub = ⟨read_query_t.get g, et⟩) := by
  constructor
  · intro q et sub _
    refine ⟨_, rfl, rfl, rfl, ?_, ?_⟩
    · intro hnone
      simp [read_t.shard, hnone]
    · intro x hx
      simp [read_t.shard, hx]
  · intro g et sub _
    rfl

/-- Witness for C2: a bounded sub-range of a closed/open Rget, and a Get
sharded to its point region. -/
theorem C2_read_shard_witness :
    (∃ q2 : rget_query_t,
      read_t.shard ⟨read_query_t.rget ⟨rget_bound_mode_t.rget_bound_closed, [1],
          rget_bound_mode_t.rget_bound_open, [5]⟩, 7⟩ ⟨[2], some [4]⟩ =
        ⟨read_query_t.rget q2, 7⟩ ∧
      q2.left_mode = rget_bound_mode_t.rget_bound_closed ∧
      q2.left_key = [2] ∧
      ((some [4] : Option Key) = none → q2.right_mode = rget_bound_mode_t.rget_bound_none) ∧
      (∀ x, (some [4] : Option Key) = some x →
        q2.right_mode = rget_bound_mode_t.rget_bound_open ∧ q2.right_key = x)) ∧
    read_t.shard ⟨read_query_t.get ⟨[3]⟩, 2⟩
        (read_t.get_region ⟨read_query_t.get ⟨[3]⟩, 2⟩) =
      ⟨read_query_t.get ⟨[3]⟩, 2⟩ :=
  ⟨C2_read_shard.1 ⟨rget_bound_mode_t.rget_bound_closed, [1],
      rget_bound_mode_t.rget_bound_open, [5]⟩ 7 ⟨[2], some [4]⟩ (by decide),
    C2_read_shard.2 ⟨[3]⟩ 2 (read_t.get_region ⟨read_query_t.get ⟨[3]⟩, 2⟩) rfl⟩

/-- C4: for a Get read and for every write, `unshard` on a response
vector whose length is not 1 fails with `DomainViolation`; on exactly
one (well-typed) response it returns that response unchanged. -/
theorem C4_unshard_single_response :
    (∀ (g : get_query_t) (et : Nat) (bits : List read_response_t),
      bits.length ≠ 1 →
        read_t.unshard ⟨read_query_t.get g, et⟩ bits =
          .error proto_error.domainViolation) ∧
    (∀ (g : get_query_t) (et : Nat) (resp : read_response_t) (gr : get_result_t),
      resp.result = read_result_t.get_result gr →
        read_t.unshard ⟨read_query_t.get g, et⟩ [resp] = .ok resp) ∧
    (∀ (w : write_t) (responses : List write_response_t),
      responses.length ≠ 1 →
        write_t.unshard w responses = .error proto_error.domainViolation) ∧
    (∀ (w : write_t) (resp : write_response_t),
      write_t.unshard w [resp] = .ok resp) := by
  refine ⟨?_, ?_, ?_, ?_⟩
  · intro g et bits hlen
    match bits with
    | [] => rfl
    | [b] => exact absurd rfl hlen
    | b1 :: b2 :: tl => rfl
  · intro g et resp gr hres
    obtain ⟨result⟩ := resp
    cases hres
    rfl
  · intro w responses hlen
    match responses with
    | [] => rfl
    | [r] => exact absurd rfl hlen
    | r1 :: r2 :: tl => rfl
  · intro w resp
    rfl

/-- Witness for C4: empty and two-element response vectors fail with
`DomainViolation`; singletons are returned unchanged. -/
theorem C4_unshard_single_response_witness :
    read_t.unshard ⟨read_query_t.get ⟨[1]⟩, 0⟩ [] = .error proto_error.domainViolation ∧
    read_t.unshard ⟨read_query_t.get ⟨[1]⟩, 0⟩ [⟨read_result_t.get_result ⟨none, 0, 0⟩⟩] =
      .ok ⟨read_result_t.get_result ⟨none, 0, 0⟩⟩ ∧
    write_t.unshard ⟨mutation_t.get_cas ⟨[2]⟩, 0, 0⟩
        [⟨write_result_t.set_result 1⟩, ⟨write_result_t.set_result 2⟩] =
      .error proto_error.domainViolation ∧
    write_t.unshard ⟨mutation_t.get_cas ⟨[2]⟩, 0, 0⟩ [⟨write_result_t.set_result 1⟩] =
      .ok ⟨write_result_t.set_result 1⟩ :=
  ⟨C4_unshard_single_response.1 ⟨[1]⟩ 0 [] (by decide),
    C4_unshard_single_response.2.1 ⟨[1]⟩ 0 ⟨read_result_t.get_result ⟨none, 0, 0⟩⟩
      ⟨none, 0, 0⟩ rfl,
    C4_unshard_single_response.2.2.1 ⟨mutation_t.get_cas ⟨[2]⟩, 0, 0⟩
      [⟨write_result_t.set_result 1⟩, ⟨write_result_t.set_result 2⟩] (by decide),
    C4_unshard_single_response.2.2.2 ⟨mutation_t.get_cas ⟨[2]⟩, 0, 0⟩
      ⟨write_result_t.set_result 1⟩⟩

/-- All partition endpoints of a map fit in the 64-bit size framing. -/
def map_keys_smallB {V : Type} (m : region_map_t V) : Bool :=
  m.all fun p =>
    decide (p.1.left.length < 2 ^ 63) && (match p.1.right with
      | some x => decide (x.length < 2 ^ 63)
      | none => true)

theorem map_keys_smallB_spec {V : Type} {m : region_map_t V}
    (h : map_keys_smallB m = true) :
    ∀ p ∈ m, p.1.left.length < 2 ^ 63 ∧
      ∀ x, p.1.right = some x → x.length < 2 ^ 63 := by
  intro p hp
  rw [map_keys_smallB, List.all_eq_true] at h
  have h2 := h p hp
  rw [Bool.and_eq_true, decide_eq_true_iff] at h2
  refine ⟨h2.1, ?_⟩
  intro x hx
  have h3 := h2.2
  rw [hx] at h3
  simpa using h3

theorem map_keys_smallB_append {V : Type} {a b : region_map_t V}
    (ha : map_keys_smallB a = true) (hb : map_keys_smallB b = true) :
    map_keys_smallB (a ++ b) = true := by
  unfold map_keys_smallB at ha hb ⊢
  rw [List.all_append, ha, hb]
  rfl

/-- Round trip of the persisted pair list: serialising every partition's
region and reading the pairs back reconstructs the same map. -/
theorem get_metainfo_internal_roundtrip {m : metainfo_t}
    (h : map_keys_smallB m = true) :
    get_metainfo_internal (m.map fun p => (wKeyRange p.1, p.2)) = .ok m := by
  induction m with
  | nil => rfl
  | cons p tl ih =>
    obtain ⟨r, v⟩ := p
    have hp := map_keys_smallB_spec h (r, v) (List.mem_cons_self (r, v) tl)
    have htl : map_keys_smallB tl = true := by
      unfold map_keys_smallB at h ⊢
      rw [List.all_cons, Bool.and_eq_true] at h
      exact h.2
    have hkr := dKeyRange_wKeyRange hp.1 hp.2 []
    rw [List.append_nil] at hkr
    simp only [List.map_cons, get_metainfo_internal, hkr, ih htl]

/-- Lookup in a concatenation: the left map wins wherever it is
defined. -/
theorem region_map_lookup_append {V : Type} (a b : region_map_t V) (k : Key) :
    region_map_lookup (a ++ b) k =
      match region_map_lookup a k with
      | some v => some v
      | none => region_map_lookup b k := by
  induction a with
  | nil => rfl
  | cons p tl ih =>
    obtain ⟨r, v⟩ := p
    simp only [List.cons_append, region_map_lookup]
    by_cases hc : r.containsB k = true
    · simp [hc]
    · simp only [Bool.not_eq_true] at hc
      simp [hc, ih]

/-- C1: the create-branch of the store constructor persists a single
(universe, empty blob) pair whose reconstructed map is defined at every
key; `update_metainfo` on any old map of universal domain persists pairs
that read back as a map of universal domain again; and the write,
set_metainfo and reset_data paths all persist exactly
`update_metainfo old new`. -/
theorem C1_metainfo_domain_universe :
    (get_metainfo_internal store_create_metainfo =
        .ok [(key_range_t.universe_range, [])] ∧
      ∀ k, (region_map_lookup [(key_range_t.universe_range, ([] : Bytes))] k).isSome = true) ∧
    (∀ old_m new_m : metainfo_t,
      map_keys_smallB old_m = true →
      map_keys_smallB new_m = true →
      (∀ k, (region_map_lookup old_m k).isSome = true) →
      ∃ m2, get_metainfo_internal (update_metainfo old_m new_m) = .ok m2 ∧
        ∀ k, (region_map_lookup m2 k).isSome = true) ∧
    (∀ (state : superblock_pairs_t) (old_m new_m : metainfo_t) (sub : key_range_t),
      get_metainfo_internal state = .ok old_m →
        set_metainfo_op state new_m = .ok (update_metainfo old_m new_m) ∧
        reset_data_op state sub new_m = .ok (update_metainfo old_m new_m)) ∧
    (∀ (state : superblock_pairs_t) (exp new_m : metainfo_t) (w : write_t)
        (dispatch : mutation_t → write_result_t) (old_m : metainfo_t),
      get_metainfo_internal state = .ok old_m →
      metainfo_matchesB old_m exp = true →
        store_write state exp new_m w dispatch =
          .ok (⟨dispatch w.mutation⟩, update_metainfo old_m new_m)) := by
  refine ⟨⟨by rfl, ?_⟩, ?_, ?_, ?_⟩
  · intro k
    simp [region_map_lookup, key_range_t.containsB, key_range_t.universe_range, keyLeB]
  · intro old_m new_m hold hnew hdom
    refine ⟨region_map_update old_m new_m, ?_, ?_⟩
    · exact get_metainfo_internal_roundtrip (map_keys_smallB_append hnew hold)
    · intro k
      unfold region_map_update
      rw [region_map_lookup_append]
      cases hn : region_map_lookup new_m k with
      | some v => rfl
      | none => exact hdom k
  · intro state old_m new_m sub h
    unfold set_metainfo_op reset_data_op
    rw [h]
    exact ⟨rfl, rfl⟩
  · intro state exp new_m w dispatch old_m h hmatch
    unfold store_write check_and_update_metainfo check_metainfo
    simp [h, hmatch]

/-- Witness for C1 at a concrete overlay of the freshly created store's
metainfo. -/
theorem C1_metainfo_domain_universe_witness :
    (∃ m2, get_metainfo_internal
        (update_metainfo [(key_range_t.universe_range, [])]
          [(key_range_t.universe_range, [7])]) = .ok m2 ∧
      ∀ k, (region_map_lookup m2 k).isSome = true) ∧
    set_metainfo_op store_create_metainfo [(key_range_t.universe_range, [7])] =
      .ok (update_metainfo [(key_range_t.universe_range, [])]
        [(key_range_t.universe_range, [7])]) :=
  ⟨C1_metainfo_domain_universe.2.1 [(key_range_t.universe_range, [])]
      [(key_range_t.universe_range, [7])] (by decide) (by decide)
      (fun k => by
        simp [region_map_lookup, key_range_t.containsB, key_range_t.universe_range,
          keyLeB]),
    (C1_metainfo_domain_universe.2.2.1 store_create_metainfo
      [(key_range_t.universe_range, [])] [(key_range_t.universe_range, [7])]
      key_range_t.universe_range (by rfl)).1⟩

/-- C5: persisting any metainfo map `m` of universal domain through
`update_metainfo` (over any well-formed old map) and reading the pairs
back through `get_metainfo_internal` reconstructs a map equal to `m` at
every key. -/
theorem C5_metainfo_roundtrip (m old_m : metainfo_t)
    (hm : map_keys_smallB m = true) (hold : map_keys_smallB old_m = true)
    (hdom : ∀ k, (region_map_lookup m k).isSome = true) :
    ∃ m2, get_metainfo_internal (update_metainfo old_m m) = .ok m2 ∧
      ∀ k, region_map_lookup m2 k = region_map_lookup m k := by
  refine ⟨region_map_update old_m m, ?_, ?_⟩
  · exact get_metainfo_internal_roundtrip (map_keys_smallB_append hm hold)
  · intro k
    unfold region_map_update
    rw [region_map_lookup_append]
    cases hn : region_map_lookup m k with
    | some v => rfl
    | none =>
      have := hdom k
      rw [hn] at this
      cases this

/-- Witness for C5 at a concrete two-partition map of universal domain. -/
theorem C5_metainfo_roundtrip_witness :
    ∃ m2, get_metainfo_internal
        (update_metainfo [(key_range_t.universe_range, [1])]
          [(⟨[], some [5]⟩, [2]), (⟨[5], none⟩, [3])]) = .ok m2 ∧
      ∀ k, region_map_lookup m2 k =
        region_map_lookup [(⟨[], some [5]⟩, [2]), (⟨[5], none⟩, [3])] k :=
  C5_metainfo_roundtrip [(⟨[], some [5]⟩, [2]), (⟨[5], none⟩, [3])]
    [(key_range_t.universe_range, [1])] (by decide) (by decide)
    (fun k => by
      simp only [region_map_lookup, key_range_t.containsB, keyLtB]
      cases h : keyLeB [5] k with
      | true => simp [keyLeB, h]
      | false => simp [keyLeB, h])

/-- C3: the read and write operations fail with `MetainfoMismatch`
whenever the on-disk metainfo masked to the expected map's domain differs
from the expected map at any key (hence on a sub-region); when they agree
everywhere, both proceed and `check_metainfo` returns the full current
metainfo. -/
theorem C3_check_metainfo (state : superblock_pairs_t) (expected cur : metainfo_t)
    (h : get_metainfo_internal state = .ok cur) :
    ((∃ k, region_map_lookup
        (region_map_mask cur (region_map_get_domain expected)) k ≠
          region_map_lookup expected k) →
      check_metainfo state expected = .error proto_error.metainfoMismatch ∧
      (∀ (r : read_t) (dispatch : read_query_t → read_result_t),
        store_read state expected r dispatch = .error proto_error.metainfoMismatch) ∧
      (∀ (new_m : metainfo_t) (w : write_t) (dispatch : mutation_t → write_result_t),
        store_write state expected new_m w dispatch =
          .error proto_error.metainfoMismatch)) ∧
    ((∀ k, region_map_lookup
        (region_map_mask cur (region_map_get_domain expected)) k =
          region_map_lookup expected k) →
      check_metainfo state expected = .ok cur ∧
      (∀ (r : read_t) (dispatch : read_query_t → read_result_t),
        store_read state expected r dispatch = .ok ⟨dispatch r.query⟩) ∧
      (∀ (new_m : metainfo_t) (w : write_t) (dispatch : mutation_t → write_result_t),
        store_write state expected new_m w dispatch =
          .ok (⟨dispatch w.mutation⟩, update_metainfo cur new_m))) := by
  have hiff : metainfo_matchesB cur expected = true ↔
      ∀ k, region_map_lookup
        (region_map_mask cur (region_map_get_domain expected)) k =
          region_map_lookup expected k := by
    rw [metainfo_matchesB_iff]
    constructor
    · intro hp k
      rw [region_map_mask_lookup]
      exact hp k
    · intro hp k
      rw [← region_map_mask_lookup]
      exact hp k
  constructor
  · rintro ⟨k, hk⟩
    have hfalse : metainfo_matchesB cur expected = false := by
      cases hmb : metainfo_matchesB cur expected with
      | false => rfl
      | true => exact absurd (hiff.mp hmb k) hk
    refine ⟨?_, ?_, ?_⟩
    · unfold check_metainfo
      simp [h, hfalse]
    · intro r dispatch
      unfold store_read check_metainfo
      simp [h, hfalse]
    · intro new_m w dispatch
      unfold store_write check_and_update_metainfo check_metainfo
      simp [h, hfalse]
  · intro hp
    have hmatch : metainfo_matchesB cur expected = true := hiff.mpr hp
    refine ⟨?_, ?_, ?_⟩
    · unfold check_metainfo
      simp [h, hmatch]
    · intro r dispatch
      unfold store_read check_metainfo
      simp [h, hmatch]
    · intro new_m w dispatch
      unfold store_write check_and_update_metainfo check_metainfo
      simp [h, hmatch]

/-- Witness for C3: on the freshly created store, an expected map with a
different blob is rejected with `MetainfoMismatch`; the matching expected
map is accepted and the full metainfo is returned. -/
theorem C3_check_metainfo_witness :
    check_metainfo store_create_metainfo [(key_range_t.universe_range, [1])] =
      .error proto_error.metainfoMismatch ∧
    check_metainfo store_create_metainfo [(key_range_t.universe_range, [])] =
      .ok [(key_range_t.universe_range, [])] :=
  ⟨((C3_check_metainfo store_create_metainfo [(key_range_t.universe_range, [1])]
      [(key_range_t.universe_range, [])] rfl).1 ⟨[], by decide⟩).1,
    ((C3_check_metainfo store_create_metainfo [(key_range_t.universe_range, [])]
      [(key_range_t.universe_range, [])] rfl).2 (fun k => by
        rw [region_map_mask_lookup]
        simp [region_map_lookup, region_map_get_domain, key_range_t.containsB,
          key_range_t.universe_range, keyLeB])).1⟩

/-- C7: `send_backfill` masks the current metainfo to the start point's
domain before consulting `should_backfill`; a refusal returns false with
no chunk emitted; an acceptance traverses every (sub-range, timestamp)
partition with the coarsened replication timestamp, registers one
progress constituent per sub-range and returns true. -/
theorem C7_send_backfill (state : superblock_pairs_t)
    (start_point : region_map_t Nat) (should_backfill : metainfo_t → Bool)
    (traverse : key_range_t → Nat → List backfill_chunk_t) (cur : metainfo_t)
    (h : get_metainfo_internal state = .ok cur) :
    (∀ k, region_map_lookup
        (region_map_mask cur (region_map_get_domain start_point)) k =
      if (region_map_get_domain start_point).containsB k then
        region_map_lookup cur k else none) ∧
    (should_backfill (region_map_mask cur (region_map_get_domain start_point)) = false →
      send_backfill state start_point should_backfill traverse = .ok (false, [], 0)) ∧
    (should_backfill (region_map_mask cur (region_map_get_domain start_point)) = true →
      send_backfill state start_point should_backfill traverse =
        .ok (true,
          start_point.flatMap
            (fun p => traverse p.1 (state_timestamp_to_repli p.2)),
          start_point.length)) := by
  refine ⟨fun k => region_map_mask_lookup cur (region_map_get_domain start_point) k,
    ?_, ?_⟩
  · intro hcond
    unfold send_backfill
    simp [h, hcond]
  · intro hcond
    unfold send_backfill
    simp [h, hcond]

/-- Witness for C7 on the freshly created store with a single universal
start-point partition at timestamp 5: refusal emits nothing, acceptance
emits the traversal of the one partition and counts one constituent. -/
theorem C7_send_backfill_witness :
    send_backfill store_create_metainfo [(key_range_t.universe_range, 5)]
        (fun _ => false) (fun _ t => [backfill_chunk_t.delete_key [1] t]) =
      .ok (false, [], 0) ∧
    send_backfill store_create_metainfo [(key_range_t.universe_range, 5)]
        (fun _ => true) (fun _ t => [backfill_chunk_t.delete_key [1] t]) =
      .ok (true, [backfill_chunk_t.delete_key [1] 5], 1) :=
  ⟨(C7_send_backfill store_create_metainfo [(key_range_t.universe_range, 5)]
      (fun _ => false) (fun _ t => [backfill_chunk_t.delete_key [1] t])
      [(key_range_t.universe_range, [])] rfl).2.1 rfl,
    (C7_send_backfill store_create_metainfo [(key_range_t.universe_range, 5)]
      (fun _ => true) (fun _ t => [backfill_chunk_t.delete_key [1] t])
      [(key_range_t.universe_range, [])] rfl).2.2 rfl⟩
